import Mathlib

/-!
Verification development for the Workline Slack search app.

The repository contains three app variants; the two with real logic are the
"enhanced" variant (scrapeArticle / refreshArticleCache / searchWorklineArticles,
file `src/unnamed/part_002`) and the Google-augmented variant
(scrapeArticle / searchWithGoogle / searchCachedArticles / searchWorklineArticles /
refreshArticleCache, file `src/unnamed/part_001`).  The scraper, the cache
refresh and the scoring loop are textually identical between the two variants,
so they are embedded once and shared.

Modelling conventions:
- JavaScript strings are Lean `String`s; `substring`, `trim`, `toLowerCase`,
  `split(' ')`, `includes` and `replace` are embedded as explicit char-list
  functions below (`takeChars`, `trimStr`, `lowerStr`, `splitOnSpaces`,
  `strContains`, `removeFirst`) so that everything evaluates in the kernel.
- The cheerio document is external ("parse(document) -> queryable tree" per the
  spec); a `Doc` records the text each fixed selector probe of `scrapeArticle`
  would return.  Network fetches are oracles `String → Option Doc`
  (`none` = axios threw / parse failed).
- `new RegExp(term, 'g')` with user-controlled `term`: we model the fragment of
  JS regexes consisting of plain characters and the `.` metacharacter
  (`PatChar`).  A term containing any other regex special character is outside
  the fragment and `compilePattern` returns `none`, which the scorer turns into
  `Except.error ()` — the model's analogue of `new RegExp` throwing.  For the
  concrete inputs used in theorems below this agrees with JS (`"((("` really
  throws a SyntaxError; metacharacter-free terms really match literally), and
  every universal theorem about match counts restricts to the literal fragment.
- `Map` is an association list with JS `Map` semantics: `set` overwrites in
  place, otherwise appends; iteration order is insertion order.
- The `scrapedAt` timestamp field (`new Date().toISOString()`) is omitted from
  the record: no consumer in the repository reads it and no claim mentions it.
- `Promise.all` batches in `refreshArticleCache` (batch size 2, 2s delay) are
  serialized into a fold: the batching affects only timing, not the resulting
  cache.  In `searchWithGoogle` the five concurrent item handlers all read the
  cache before any of them writes it; the model performs all lookups against
  the entry cache and then applies the writes, matching that interleaving.
-/

namespace Workline

/-- Models JS `String.prototype.toLowerCase` (per-character lowering). -/
def lowerStr (s : String) : String := String.mk (s.data.map Char.toLower)

/-- Models JS `String.prototype.trim`: drop whitespace from both ends. -/
def trimStr (s : String) : String :=
  String.mk (((s.data.dropWhile Char.isWhitespace).reverse.dropWhile Char.isWhitespace).reverse)

/-- Models JS `String.prototype.substring(0, n)`. -/
def takeChars (s : String) (n : Nat) : String := String.mk (s.data.take n)

def splitOnSpacesAux : List Char → List Char → List String
  | [], acc => [String.mk acc.reverse]
  | c :: cs, acc =>
    if c = ' ' then String.mk acc.reverse :: splitOnSpacesAux cs []
    else splitOnSpacesAux cs (c :: acc)

/-- Models JS `String.prototype.split(' ')`: split at every single space. -/
def splitOnSpaces (s : String) : List String := splitOnSpacesAux s.data []

/-- Models JS `String.prototype.includes`: `needle` occurs somewhere in `hay`. -/
def strContains (hay needle : String) : Bool :=
  (List.range (hay.data.length + 1)).any (fun i => needle.data.isPrefixOf (hay.data.drop i))

def removeFirstAux (pat : List Char) : List Char → List Char
  | [] => []
  | c :: cs =>
    if pat.isPrefixOf (c :: cs) then (c :: cs).drop pat.length
    else c :: removeFirstAux pat cs

/-- Models JS `String.prototype.replace(pat, '')` for a plain string `pat`:
remove the first occurrence of `pat`, if any. -/
def removeFirst (s pat : String) : String := String.mk (removeFirstAux pat.data s.data)

def collapseWsAux : List Char → Bool → List Char
  | [], _ => []
  | c :: cs, prevWs =>
    if c.isWhitespace then
      if prevWs then collapseWsAux cs true else ' ' :: collapseWsAux cs true
    else c :: collapseWsAux cs false

/-- Models JS `str.replace(/\s+/g, ' ')`: collapse whitespace runs to single spaces. -/
def collapseWs (s : String) : String := String.mk (collapseWsAux s.data false)

/-- Models the JS `a || b` idiom on strings, where the empty string is falsy. -/
def jsOr (a b : String) : String := if a = "" then b else a

/-- One atom of the modelled regex fragment: a literal character or `.`. -/
inductive PatChar where
  | lit (c : Char)
  | dot
deriving DecidableEq

/-- The JS regex special characters (besides `.`, which the fragment models). -/
def regexSpecials : List Char :=
  ['\\', '^', '$', '|', '?', '*', '+', '(', ')', '[', ']', Char.ofNat 123, Char.ofNat 125]

def compileChar (c : Char) : Option PatChar :=
  if c = '.' then some PatChar.dot
  else if regexSpecials.contains c then none
  else some (PatChar.lit c)

def compileChars : List Char → Option (List PatChar)
  | [] => some []
  | c :: cs =>
    match compileChar c, compileChars cs with
    | some p, some ps => some (p :: ps)
    | _, _ => none

/-- Models `new RegExp(term, 'g')` on the literal-and-dot fragment; `none`
corresponds to `new RegExp` throwing (e.g. on `"((("`) or to a pattern outside
the modelled fragment. -/
def compilePattern (s : String) : Option (List PatChar) := compileChars s.data

/-- Whether a single pattern atom matches a character.  JS `.` matches any
character except the four line terminators. -/
def patCharMatches : PatChar → Char → Bool
  | PatChar.lit c, d => c = d
  | PatChar.dot, d =>
    !(d = Char.ofNat 10 || d = Char.ofNat 13 || d = Char.ofNat 0x2028 || d = Char.ofNat 0x2029)

/-- Try to match `pat` at the head of `s`; on success return the rest of `s`. -/
def matchesAt : List PatChar → List Char → Option (List Char)
  | [], rest => some rest
  | _ :: _, [] => none
  | p :: ps, c :: cs => if patCharMatches p c then matchesAt ps cs else none

def countMatchesAux (pat : List PatChar) : Nat → List Char → Nat
  | 0, _ => 0
  | Nat.succ fuel, s =>
    match matchesAt pat s with
    | some rest => 1 + countMatchesAux pat fuel rest
    | none =>
      match s with
      | [] => 0
      | _ :: cs => countMatchesAux pat fuel cs

/-- Models `(str.match(regex) || []).length` for a global regex: the number of
non-overlapping matches found scanning left to right (on failure at a position,
advance one character).  Fuel `s.length + 1` always suffices for a non-empty
pattern. -/
def countMatches (pat : List PatChar) (s : List Char) : Nat :=
  countMatchesAux pat (s.length + 1) s

def countOccAux (pat : List Char) : Nat → List Char → Nat
  | 0, _ => 0
  | Nat.succ fuel, s =>
    if pat.isPrefixOf s then 1 + countOccAux pat fuel (s.drop pat.length)
    else
      match s with
      | [] => 0
      | _ :: cs => countOccAux pat fuel cs

def countOccL (pat s : List Char) : Nat := countOccAux pat (s.length + 1) s

/-- Claim-side counting: the number of non-overlapping left-to-right
occurrences of `t` as a plain substring of `s`. -/
def countOccurrences (t s : String) : Nat := countOccL t.data s.data

/-- One Article Record (the object built by `scrapeArticle`).  The
`scrapedAt` timestamp is omitted: nothing in the repository reads it. -/
structure Article where
  url : String
  title : String
  summary : String
  content : String
  topics : List String
  publishDate : String
deriving DecidableEq

/-- The text each fixed cheerio probe of `scrapeArticle` returns on a fetched
page.  Attribute probes (`attr(...)`) that JS reports as `undefined` are
modelled as the empty string: in every use site below `undefined` and `''` are
both falsy and flow identically.  For the content-container loop the presence
of the element matters even when its text is empty, hence `Option String`. -/
structure Doc where
  h1First : String            -- $('h1').first().text()
  titleTag : String           -- $('title').text()
  titleClassFirst : String    -- $('[class*="title"]').first().text()
  metaDescription : String    -- $('meta[name="description"]').attr('content')
  ogDescription : String      -- $('meta[property="og:description"]').attr('content')
  excerptFirst : String       -- $('.excerpt, .summary, .intro').first().text()
  summaryProbes : List String -- $(sel).first().text() for the six summary selectors, in order
  contentProbes : List (Option String) -- $(sel) presence/text for the four content selectors, in order
  bodyText : String           -- $('body').text()
  tagTexts : List String      -- texts of $('[class*="tag"], [class*="category"], [rel="tag"], .hashtag')
  timeDatetime : String       -- $('time[datetime]').attr('datetime')
  articlePublishedMeta : String -- $('meta[property="article:published_time"]').attr('content')
  dateClassFirst : String     -- $('.date, .published, .post-date').first().text()
deriving DecidableEq

def summaryFromProbes : List String → String → String
  | [], dflt => dflt
  | p :: ps, dflt =>
    let firstPara := trimStr p
    if firstPara ≠ "" ∧ 30 < firstPara.length then takeChars firstPara 250
    else summaryFromProbes ps dflt

def contentFromProbes : List (Option String) → String
  | [] => ""
  | some t :: _ => trimStr t
  | none :: ps => contentFromProbes ps

def topicsStep (acc : List String) (t : String) : List String :=
  let tag := removeFirst (lowerStr (trimStr t)) "#"
  if tag ≠ "" ∧ 2 < tag.length ∧ tag ∉ acc then acc ++ [tag] else acc

/-- Embeds `scrapeArticle(url)` from `src/unnamed/part_001` lines 29-129 (the
same function appears in `src/unnamed/part_002` lines 24-124).  `fetched` is
the outcome of the axios fetch + cheerio parse: `none` means the try block
threw and the catch returns the placeholder record. -/
def scrapeArticle (fetched : Option Doc) (url : String) : Article :=
  match fetched with
  | none =>
    { url := url, title := "Article", summary := "Could not load summary",
      content := "", topics := [], publishDate := "" }
  | some d =>
    let title :=
      jsOr (trimStr d.h1First)
        (jsOr (trimStr (removeFirst (removeFirst d.titleTag " | FlexOS") " | The Workline"))
          (trimStr d.titleClassFirst))
    let summary0 := jsOr d.metaDescription (jsOr d.ogDescription (trimStr d.excerptFirst))
    let summary :=
      if summary0 = "" ∨ summary0.length < 50 then summaryFromProbes d.summaryProbes summary0
      else summary0
    let content0 := contentFromProbes d.contentProbes
    let content1 := if content0 = "" ∨ content0.length < 100 then trimStr d.bodyText else content0
    let content := takeChars (collapseWs content1) 3000
    let topics := (d.tagTexts.foldl topicsStep []).take 5
    let publishDate := jsOr d.timeDatetime (jsOr d.articlePublishedMeta (trimStr d.dateClassFirst))
    { url := url
      title := takeChars title 150
      summary :=
        if summary = "" then ""
        else takeChars summary 300 ++ (if 300 < summary.length then "..." else "")
      content := content
      topics := topics
      publishDate := publishDate }

/-- The in-memory article cache, as a JS `Map`: association list in insertion
order, `set` overwriting in place. -/
def Cache := List (String × Article)
deriving DecidableEq

def mapGet (c : Cache) (k : String) : Option Article :=
  match List.find? (fun p => p.1 = k) c with
  | some p => some p.2
  | none => none

def mapSet (c : Cache) (k : String) (v : Article) : Cache :=
  match c with
  | [] => [(k, v)]
  | p :: ps => if p.1 = k then (k, v) :: ps else p :: mapSet ps k v

/-- The module-level mutable state: `articleCache` and `lastCacheTime`. -/
structure AppState where
  cache : Cache
  lastCacheTime : Option Nat
deriving DecidableEq

/-- `CACHE_DURATION = 30 * 60 * 1000` (milliseconds). -/
def CACHE_DURATION : Nat := 30 * 60 * 1000

/-- The staleness test `!lastCacheTime || Date.now() - lastCacheTime > CACHE_DURATION`. -/
def shouldRefresh (lastCacheTime : Option Nat) (now : Nat) : Bool :=
  match lastCacheTime with
  | none => true
  | some t => CACHE_DURATION < now - t

def startsWithSlash (href : String) : Bool :=
  match href.data with
  | c :: _ => c = '/'
  | [] => false

def resolveHref (href : String) : String :=
  if startsWithSlash href then "https://www.flexos.work" ++ href else href

def keepHref (href : String) : Bool :=
  strContains href "workline" ∧ href ≠ "https://www.flexos.work/the-workline/" ∧
    !strContains href "#" ∧ !strContains href "mailto:"

/-- The `articleUrls` set built by the selector loops of `refreshArticleCache`:
resolve each raw href, keep the Workline-article ones, dedupe preserving
first-insertion order (JS `Set` iterates in insertion order). -/
def discoverUrls (hrefs : List String) : List String :=
  (hrefs.map resolveHref).foldl
    (fun acc h => if keepHref h then (if h ∈ acc then acc else acc ++ [h]) else acc) []

def refreshInsert (c : Cache) (article : Article) : Cache :=
  if article.title ≠ "Article" then mapSet c article.url article else c

/-- Embeds `refreshArticleCache()` (`src/unnamed/part_001` lines 255-325,
identical in `src/unnamed/part_002` lines 127-197).  `indexFetch` is the
outcome of fetching+parsing the index page: `none` means the try block threw
and the catch leaves all state untouched.  `fetch` is the per-article fetch
oracle.  The batch-of-2 loop with inter-batch delays processes exactly the
first `min(urls.length, 20)` discovered URLs in order; it is serialized here
into a fold over `urls.take 20`.  `lastCacheTime` is set only after all
batches complete. -/
def refreshArticleCache (indexFetch : Option (List String)) (fetch : String → Option Doc)
    (now : Nat) (s : AppState) : AppState :=
  match indexFetch with
  | none => s
  | some hrefs =>
    let urls := (discoverUrls hrefs).take 20
    let cache' := urls.foldl (fun c u => refreshInsert c (scrapeArticle (fetch u) u)) s.cache
    { cache := cache', lastCacheTime := some now }

/-- `query.toLowerCase().split(' ').filter(term => term.length > 2)`. -/
def queryTerms (query : String) : List String :=
  (splitOnSpaces (lowerStr query)).filter (fun t => 2 < t.length)

/-- The per-term body of the scoring loop (`src/unnamed/part_001` lines
201-217, identical in `src/unnamed/part_002` lines 219-235): +5 for a title
substring hit, +3 summary, +2 topic, plus the capped global-regex match count
over `searchableText`.  `Except.error ()` is `new RegExp(term, 'g')`
throwing. -/
def termPoints (t : String) (a : Article) : Except Unit Nat :=
  match compilePattern t with
  | none => Except.error ()
  | some pat =>
    let searchableText := lowerStr (a.title ++ " " ++ a.summary ++ " " ++ a.content)
    Except.ok
      ((if strContains (lowerStr a.title) t then 5 else 0)
        + (if strContains (lowerStr a.summary) t then 3 else 0)
        + (if a.topics.any (fun topic => strContains topic t) then 2 else 0)
        + min (countMatches pat searchableText.data) 3)

/-- The whole `queryTerms.forEach` score accumulation for one record. -/
def scoreArticleTerms (terms : List String) (a : Article) : Except Unit Nat :=
  terms.foldlM (fun acc t => (termPoints t a).map (fun p => acc + p)) 0

/-- The cache scan: for each cache entry in insertion order, compute its score
and keep it (paired with the score) when the score is positive.  Shared body
of `searchCachedArticles` (part_001) and `searchWorklineArticles` (part_002). -/
def scanScores (terms : List String) (c : Cache) : Except Unit (List (Article × Nat)) :=
  c.foldlM
    (fun acc p => do
      let n ← scoreArticleTerms terms p.2
      pure (if 0 < n then acc ++ [(p.2, n)] else acc))
    []

/-- One entry of the result list returned to the caller.  The part_001 cache
branch spreads the whole record (including `content`), but no consumer reads
the extra fields, so the result carries the displayed fields plus the
provenance tag and score. -/
structure SearchResult where
  url : String
  title : String
  summary : String
  topics : List String
  publishDate : String
  source : String
  score : Nat
deriving DecidableEq

/-- Stable insertion keeping descending scores: a new element goes after all
existing elements with an equal or higher score, matching the stable JS
`sort((a, b) => b.score - a.score)`. -/
def insertDesc (score : α → Nat) (x : α) : List α → List α
  | [] => [x]
  | h :: t => if score h < score x then x :: h :: t else h :: insertDesc score x t

def sortByScoreDesc (score : α → Nat) (l : List α) : List α :=
  l.foldl (fun acc x => insertDesc score x acc) []

/-- One item of the Google Custom Search response (`response.data.items`). -/
structure GItem where
  link : String
  title : String
  snippet : String
deriving DecidableEq

/-- Whether `GOOGLE_API_KEY` and `GOOGLE_CSE_ID` are both configured. -/
structure Config where
  googleConfigured : Bool

def toCacheResult (p : Article × Nat) : SearchResult :=
  { url := p.1.url, title := p.1.title, summary := p.1.summary, topics := p.1.topics,
    publishDate := p.1.publishDate, source := "cache", score := p.2 }

/-- The article data one Google item resolves to: the cached record if the
link is cached, else a fresh scrape. -/
def googleArticleData (fetch : String → Option Doc) (c : Cache) (item : GItem) : Article :=
  match mapGet c item.link with
  | some a => a
  | none => scrapeArticle (fetch item.link) item.link

/-- The cache insertion one Google item performs: only on a cache miss whose
fresh scrape is not the placeholder. -/
def googleInsertVal (fetch : String → Option Doc) (c : Cache) (link : String) : Option Article :=
  match mapGet c link with
  | some _ => none
  | none =>
    let a := scrapeArticle (fetch link) link
    if a.title ≠ "Article" then some a else none

/-- The result object built for one Google item.  `articleData?.title ||
item.title` falls back to the raw Google fields when the scraped field is
empty; `articleData?.topics || []` never falls back (a JS array is truthy). -/
def googleResultOf (a : Article) (item : GItem) : SearchResult :=
  { url := item.link, title := jsOr a.title item.title, summary := jsOr a.summary item.snippet,
    topics := a.topics, publishDate := a.publishDate, source := "google", score := 10 }

/-- Embeds `searchWithGoogle(query)` (`src/unnamed/part_001` lines 132-184).
`gresp`: `none` = the axios request threw (caught, returns `[]`);
`some none` = no `items` field; `some (some items)` = the result items.  The
five processed items run concurrently in JS and all read the cache before any
write lands; the model therefore resolves every item against the entry cache
and then applies the insertions in item order.  The final
`filter(result => result !== null)` is the identity (no branch yields null). -/
def searchWithGoogle (cfg : Config) (fetch : String → Option Doc)
    (gresp : Option (Option (List GItem))) (c : Cache) : List SearchResult × Cache :=
  if !cfg.googleConfigured then ([], c)
  else
    match gresp with
    | none => ([], c)
    | some none => ([], c)
    | some (some items) =>
      let top := items.take 5
      (top.map (fun item => googleResultOf (googleArticleData fetch c item) item),
        top.foldl
          (fun cc item =>
            match googleInsertVal fetch c item.link with
            | some a => mapSet cc item.link a
            | none => cc)
          c)

/-- Embeds `searchCachedArticles(query)` (`src/unnamed/part_001` lines
187-225): refresh when stale, then scan the cache and sort descending. -/
def searchCachedArticles (indexFetch : Option (List String)) (fetch : String → Option Doc)
    (now : Nat) (query : String) (s : AppState) :
    Except Unit (List SearchResult) × AppState :=
  let s1 := if shouldRefresh s.lastCacheTime now then refreshArticleCache indexFetch fetch now s else s
  ((scanScores (queryTerms query) s1.cache).map
      (fun scored => sortByScoreDesc (fun r => r.score) (scored.map toCacheResult)),
    s1)

/-- The combine step of part_001's `searchWorklineArticles` (lines 237-246):
`allResults = [...googleResults]`, then append each cache result whose URL is
not already present. -/
def mergedAll (googleResults cacheResults : List SearchResult) : List SearchResult :=
  cacheResults.foldl
    (fun acc c => if acc.any (fun r => r.url = c.url) then acc else acc ++ [c])
    googleResults

/-- Combine, sort by score descending (stable), truncate to 5 (lines 237-251). -/
def mergeResults (googleResults cacheResults : List SearchResult) : List SearchResult :=
  (sortByScoreDesc (fun r => r.score) (mergedAll googleResults cacheResults)).take 5

/-- Embeds `searchWorklineArticles(query)` of `src/unnamed/part_001` (lines
228-252): Google first (which may grow the cache), then the cache search
(which may refresh), then merge.  An exception from the scoring loop
propagates to the caller. -/
def searchWorklineArticles1 (cfg : Config) (indexFetch : Option (List String))
    (fetch : String → Option Doc) (gresp : Option (Option (List GItem)))
    (now : Nat) (query : String) (s : AppState) :
    Except Unit (List SearchResult) × AppState :=
  let g := searchWithGoogle cfg fetch gresp s.cache
  let r := searchCachedArticles indexFetch fetch now query { s with cache := g.2 }
  (r.1.map (fun cacheResults => mergeResults g.1 cacheResults), r.2)

/-- Embeds `searchWorklineArticles(query)` of `src/unnamed/part_002` (lines
200-245): refresh when stale, one more refresh if the cache is still empty,
then scan, sort descending and truncate to 5.  Results here are the spread
records with their scores (this variant has no provenance tag). -/
def searchWorklineArticles2 (indexFetch : Option (List String)) (fetch : String → Option Doc)
    (now : Nat) (query : String) (s : AppState) :
    Except Unit (List (Article × Nat)) × AppState :=
  let s1 := if shouldRefresh s.lastCacheTime now then refreshArticleCache indexFetch fetch now s else s
  let s2 := if s1.cache.isEmpty then refreshArticleCache indexFetch fetch now s1 else s1
  ((scanScores (queryTerms query) s2.cache).map
      (fun scored => (sortByScoreDesc (fun p => p.2) scored).take 5),
    s2)

/-! Claim-side definitions.  These follow the words of the spec / claims, to be
compared with the source-derived definitions above. -/

def wsTokensAux : List Char → List Char → List String
  | [], [] => []
  | [], acc => [String.mk acc.reverse]
  | c :: cs, acc =>
    if c.isWhitespace then
      (if acc.isEmpty then wsTokensAux cs [] else String.mk acc.reverse :: wsTokensAux cs [])
    else wsTokensAux cs (c :: acc)

/-- Split on whitespace, as claim C1 words it: the maximal whitespace-free
tokens of the string. -/
def wsTokens (s : String) : List String := wsTokensAux s.data []

/-- The query terms as claim C1 describes them: lowercase, split on
whitespace, discard terms of length ≤ 2. -/
def specTermsC1 (query : String) : List String :=
  (wsTokens (lowerStr query)).filter (fun t => 2 < t.length)

/-- The per-term score as claim C1 describes it: the frequency bonus counts
occurrences of the term as a substring of the concatenation of title, summary
and body, capped at 3. -/
def specTermScoreC1 (t : String) (a : Article) : Nat :=
  (if strContains (lowerStr a.title) t then 5 else 0)
    + (if strContains (lowerStr a.summary) t then 3 else 0)
    + (if a.topics.any (fun topic => strContains topic t) then 2 else 0)
    + min (countOccurrences t (lowerStr (a.title ++ a.summary ++ a.content))) 3

/-- The total relevance score exactly as claim C1 states it. -/
def specScoreC1 (query : String) (a : Article) : Nat :=
  ((specTermsC1 query).map (fun t => specTermScoreC1 t a)).sum

/-- The regex metacharacters of JS; a term containing none of these is matched
literally by `new RegExp`. -/
def regexMetachars : List Char := '.' :: regexSpecials

/-- A term free of regex metacharacters. -/
def isRegexSafe (t : String) : Bool := t.data.all (fun c => !regexMetachars.contains c)

/-- The per-term score per the amended claim C1: same 5/3/2 components, but
the frequency bonus counts non-overlapping occurrences of the term in the
lowercased space-joined string `title + ' ' + summary + ' ' + body`. -/
def claimTermScore (t : String) (a : Article) : Nat :=
  (if strContains (lowerStr a.title) t then 5 else 0)
    + (if strContains (lowerStr a.summary) t then 3 else 0)
    + (if a.topics.any (fun topic => strContains topic t) then 2 else 0)
    + min (countOccurrences t (lowerStr (a.title ++ " " ++ a.summary ++ " " ++ a.content))) 3

/-- The total score per the amended claim C1 (terms split on single spaces). -/
def claimScore (query : String) (a : Article) : Nat :=
  ((queryTerms query).map (fun t => claimTermScore t a)).sum

/-- The score of a term once `new RegExp` is known not to throw (`0` in the
unreachable error case). -/
def pointsOf (t : String) (a : Article) : Nat :=
  match termPoints t a with
  | Except.ok n => n
  | Except.error _ => 0

/-- Cache well-formedness (claim C10): every stored record's `url` equals its
key and no stored record carries the placeholder title. -/
def wfCache (c : Cache) : Bool :=
  c.all (fun p => p.2.url = p.1 ∧ p.2.title ≠ "Article")

/-! Fixtures used by witnesses and counterexamples. -/

/-- A cached article whose title and body mention "hybrid". -/
def artHybrid : Article :=
  { url := "https://www.flexos.work/the-workline/hybrid-work-guide",
    title := "Hybrid Work Guide", summary := "", content := "hybrid hybrid work",
    topics := [], publishDate := "" }

/-- A record whose only text is the title "abc". -/
def artAbc : Article :=
  { url := "https://www.flexos.work/the-workline/abc",
    title := "abc", summary := "", content := "", topics := [], publishDate := "" }

/-- A Google hit pointing at the cached hybrid article. -/
def gItemHybrid : GItem :=
  { link := "https://www.flexos.work/the-workline/hybrid-work-guide",
    title := "Hybrid Work Guide - FlexOS", snippet := "google snippet" }

/-- A fetched page on which every title probe comes back empty. -/
def docNoTitle : Doc :=
  { h1First := "", titleTag := "", titleClassFirst := "", metaDescription := "d",
    ogDescription := "", excerptFirst := "", summaryProbes := [], contentProbes := [],
    bodyText := "body text of the page", tagTexts := [], timeDatetime := "",
    articlePublishedMeta := "", dateClassFirst := "" }

/-- A fetch oracle that always fails. -/
def fetchNone : String → Option Doc := fun _ => none

/-- An external (Google-branch) result for the hybrid article. -/
def gResHybrid : SearchResult :=
  { url := "https://www.flexos.work/the-workline/hybrid-work-guide",
    title := "Hybrid Work Guide", summary := "google snippet", topics := [],
    publishDate := "", source := "google", score := 10 }

/-- A local (cache-branch) result for the hybrid article. -/
def cResHybrid : SearchResult :=
  { url := "https://www.flexos.work/the-workline/hybrid-work-guide",
    title := "Hybrid Work Guide", summary := "", topics := [],
    publishDate := "", source := "cache", score := 8 }

/-- A starting state holding only the hybrid article, freshly refreshed. -/
def stateHybrid : AppState :=
  { cache := [(artHybrid.url, artHybrid)], lastCacheTime := some 0 }

/-! Basic lemmas. -/

theorem string_data_append (a b : String) : (a ++ b).data = a.data ++ b.data := by
  cases a; cases b; rfl

theorem lowerStr_data (s : String) : (lowerStr s).data = s.data.map Char.toLower := rfl

theorem matchesAt_some_length {pat : List PatChar} {s rest : List Char}
    (h : matchesAt pat s = some rest) : rest.length + pat.length = s.length := by
  induction pat generalizing s with
  | nil => simp [matchesAt] at h; simp [h]
  | cons p ps ih =>
    cases s with
    | nil => simp [matchesAt] at h
    | cons c cs =>
      simp only [matchesAt] at h
      split at h
      · have := ih h
        simp [List.length_cons]
        omega
      · exact absurd h (by simp)

theorem matchesAt_append {pat : List PatChar} {s rest : List Char} (t : List Char)
    (h : matchesAt pat s = some rest) : matchesAt pat (s ++ t) = some (rest ++ t) := by
  induction pat generalizing s with
  | nil => simp [matchesAt] at h ⊢; simp [h]
  | cons p ps ih =>
    cases s with
    | nil => simp [matchesAt] at h
    | cons c cs =>
      simp only [matchesAt, List.cons_append] at h ⊢
      split at h
      · simpa [*] using ih h
      · exact absurd h (by simp)

theorem matchesAt_none_append {pat : List PatChar} {s t rest : List Char}
    (hn : matchesAt pat s = none) (hs : matchesAt pat (s ++ t) = some rest) :
    s.length < pat.length := by
  induction pat generalizing s with
  | nil => simp [matchesAt] at hn
  | cons p ps ih =>
    cases s with
    | nil => simp
    | cons c cs =>
      simp only [matchesAt, List.cons_append] at hn hs
      split at hn
      · have := ih hn (by simpa [*] using hs)
        simp
        omega
      · simp_all

theorem countMatchesAux_congr {pat : List PatChar} (hp : pat ≠ []) :
    ∀ f1 f2 s, s.length < f1 → s.length < f2 →
      countMatchesAux pat f1 s = countMatchesAux pat f2 s := by
  intro f1
  induction f1 with
  | zero => intro f2 s h1; omega
  | succ f ih =>
    intro f2 s h1 h2
    cases f2 with
    | zero => omega
    | succ f2' =>
      simp only [countMatchesAux]
      cases hm : matchesAt pat s with
      | some rest =>
        have hlen := matchesAt_some_length hm
        have hplen : 0 < pat.length := List.length_pos.mpr hp
        have : rest.length < f := by omega
        dsimp only
        rw [ih f2' rest this (by omega)]
      | none =>
        cases s with
        | nil => rfl
        | cons c cs =>
          have : cs.length < f := by simp at h1; omega
          dsimp only
          rw [ih f2' cs this (by simp at h2; omega)]

/-- The recursion equation for `countMatches` on a non-empty pattern. -/
theorem countMatches_eq {pat : List PatChar} (hp : pat ≠ []) (s : List Char) :
    countMatches pat s =
      match matchesAt pat s with
      | some rest => 1 + countMatches pat rest
      | none =>
        match s with
        | [] => 0
        | _ :: cs => countMatches pat cs := by
  unfold countMatches
  conv_lhs => rw [show s.length + 1 = Nat.succ s.length from rfl]
  simp only [countMatchesAux]
  cases hm : matchesAt pat s with
  | some rest =>
    have hlen := matchesAt_some_length hm
    have hplen : 0 < pat.length := List.length_pos.mpr hp
    dsimp only
    rw [countMatchesAux_congr hp s.length (rest.length + 1) rest (by omega) (by omega)]
    rfl
  | none =>
    cases s with
    | nil => rfl
    | cons c cs =>
      dsimp only
      rw [countMatchesAux_congr hp (c :: cs).length (cs.length + 1) cs (by simp) (by omega)]
      rfl

theorem countMatches_short {pat : List PatChar} (hp : pat ≠ []) :
    ∀ s, s.length < pat.length → countMatches pat s = 0 := by
  have hplen : 0 < pat.length := List.length_pos.mpr hp
  suffices h : ∀ n s, List.length s = n → s.length < pat.length → countMatches pat s = 0 by
    exact fun s => h s.length s rfl
  intro n
  induction n using Nat.strong_induction_on with
  | _ n ih =>
    intro s hn hs
    rw [countMatches_eq hp]
    cases hm : matchesAt pat s with
    | some rest =>
      exfalso
      have hlen := matchesAt_some_length hm
      omega
    | none =>
      cases s with
      | nil => rfl
      | cons c cs =>
        dsimp only
        subst hn
        exact ih cs.length (by simp) cs rfl (by simp at hs ⊢; omega)

/-- Appending text never decreases the global-regex match count. -/
theorem countMatches_append_le {pat : List PatChar} (hp : pat ≠ []) :
    ∀ s t, countMatches pat s ≤ countMatches pat (s ++ t) := by
  have hplen : 0 < pat.length := List.length_pos.mpr hp
  suffices h : ∀ n s, List.length s = n →
      ∀ t, countMatches pat s ≤ countMatches pat (s ++ t) by
    exact fun s => h s.length s rfl
  intro n
  induction n using Nat.strong_induction_on with
  | _ n ih =>
    intro s hn t
    rcases Nat.lt_or_ge s.length pat.length with hshort | hlong
    · rw [countMatches_short hp s hshort]
      exact Nat.zero_le _
    rw [countMatches_eq hp s, countMatches_eq hp (s ++ t)]
    cases hm : matchesAt pat s with
    | some rest =>
      rw [matchesAt_append t hm]
      have hlen := matchesAt_some_length hm
      have hrec := ih rest.length (by omega) rest rfl t
      show 1 + countMatches pat rest ≤ 1 + countMatches pat (rest ++ t)
      exact Nat.add_le_add_left hrec 1
    | none =>
      cases hm2 : matchesAt pat (s ++ t) with
      | some rest2 =>
        have := matchesAt_none_append hm hm2
        omega
      | none =>
        cases s with
        | nil => exact Nat.zero_le _
        | cons c cs =>
          subst hn
          show countMatches pat cs ≤ countMatches pat (cs ++ t)
          exact ih cs.length (by simp) cs rfl t

theorem countOccAux_congr {pat : List Char} (hp : pat ≠ []) :
    ∀ f1 f2 s, s.length < f1 → s.length < f2 →
      countOccAux pat f1 s = countOccAux pat f2 s := by
  have hplen : 0 < pat.length := List.length_pos.mpr hp
  intro f1
  induction f1 with
  | zero => intro f2 s h1; omega
  | succ f ih =>
    intro f2 s h1 h2
    cases f2 with
    | zero => omega
    | succ f2' =>
      simp only [countOccAux]
      by_cases hpre : pat.isPrefixOf s = true
      · rw [if_pos hpre, if_pos hpre]
        have hple : pat.length ≤ s.length := (List.isPrefixOf_iff_prefix.mp hpre).length_le
        have hd : (s.drop pat.length).length < s.length := by
          rw [List.length_drop]
          omega
        rw [ih f2' (s.drop pat.length) (by omega) (by omega)]
      · rw [if_neg hpre, if_neg hpre]
        cases s with
        | nil => rfl
        | cons c cs =>
          have : cs.length < f := by simp at h1; omega
          dsimp only
          rw [ih f2' cs this (by simp at h2; omega)]

/-- The recursion equation for the claim-side occurrence count on a non-empty
needle. -/
theorem countOccL_eq {pat : List Char} (hp : pat ≠ []) (s : List Char) :
    countOccL pat s =
      if pat.isPrefixOf s then 1 + countOccL pat (s.drop pat.length)
      else
        match s with
        | [] => 0
        | _ :: cs => countOccL pat cs := by
  have hplen : 0 < pat.length := List.length_pos.mpr hp
  conv_lhs => rw [show countOccL pat s = countOccAux pat (Nat.succ s.length) s from rfl]
  simp only [countOccAux]
  by_cases hpre : pat.isPrefixOf s = true
  · rw [if_pos hpre, if_pos hpre]
    have hple : pat.length ≤ s.length := (List.isPrefixOf_iff_prefix.mp hpre).length_le
    have heq : countOccAux pat s.length (s.drop pat.length) = countOccL pat (s.drop pat.length) := by
      exact countOccAux_congr hp s.length ((s.drop pat.length).length + 1) (s.drop pat.length)
        (by rw [List.length_drop]; omega) (by omega)
    rw [heq]
  · rw [if_neg hpre, if_neg hpre]
    cases s with
    | nil => rfl
    | cons c cs => rfl

/-- A purely literal pattern matches exactly when the needle is a prefix. -/
theorem matchesAt_lit (t s : List Char) :
    matchesAt (t.map PatChar.lit) s =
      if t.isPrefixOf s then some (s.drop t.length) else none := by
  induction t generalizing s with
  | nil => simp [matchesAt, List.isPrefixOf]
  | cons c cs ih =>
    cases s with
    | nil => simp [matchesAt, List.isPrefixOf]
    | cons d ds =>
      simp only [List.map_cons, matchesAt, List.isPrefixOf, patCharMatches]
      by_cases hcd : c = d
      · subst hcd
        simp [ih]
      · simp [hcd, Ne.symm hcd]

/-- On a metacharacter-free (hence literal) pattern, the regex match count is
the non-overlapping substring occurrence count. -/
theorem countMatches_lit {t : List Char} (ht : t ≠ []) :
    ∀ s, countMatches (t.map PatChar.lit) s = countOccL t s := by
  have hp : t.map PatChar.lit ≠ [] := by
    intro h
    exact ht (List.map_eq_nil_iff.mp h)
  have hplen : 0 < t.length := List.length_pos.mpr ht
  suffices h : ∀ n s, List.length s = n →
      countMatches (t.map PatChar.lit) s = countOccL t s by
    exact fun s => h s.length s rfl
  intro n
  induction n using Nat.strong_induction_on with
  | _ n ih =>
    intro s hn
    rw [countMatches_eq hp, matchesAt_lit, countOccL_eq ht]
    by_cases hpre : t.isPrefixOf s = true
    · have hple : t.length ≤ s.length := (List.isPrefixOf_iff_prefix.mp hpre).length_le
      rw [if_pos hpre, if_pos hpre]
      dsimp only [List.length_map]
      rw [ih (s.drop t.length).length (by rw [List.length_drop]; omega)
        (s.drop t.length) rfl]
    · rw [if_neg hpre, if_neg hpre]
      cases s with
      | nil => rfl
      | cons c cs =>
        dsimp only
        subst hn
        rw [ih cs.length (by simp) cs rfl]

theorem compileChars_length :
    ∀ {l : List Char} {pat : List PatChar}, compileChars l = some pat → pat.length = l.length := by
  intro l
  induction l with
  | nil =>
    intro pat h
    simp only [compileChars, Option.some.injEq] at h
    simp [← h]
  | cons c cs ih =>
    intro pat h
    simp only [compileChars] at h
    cases hc : compileChar c with
    | none => rw [hc] at h; exact absurd h (by simp)
    | some p =>
      rw [hc] at h
      cases hcs : compileChars cs with
      | none => rw [hcs] at h; exact absurd h (by simp)
      | some ps =>
        rw [hcs] at h
        simp only [Option.some.injEq] at h
        simp [← h, ih hcs]

theorem compilePattern_ne_nil {t : String} {pat : List PatChar}
    (ht : t.data ≠ []) (h : compilePattern t = some pat) : pat ≠ [] := by
  intro hnil
  have := compileChars_length h
  rw [hnil] at this
  exact ht (List.eq_nil_of_length_eq_zero this.symm)

theorem compileChars_safe :
    ∀ {l : List Char}, (l.all fun c => !regexMetachars.contains c) = true →
      compileChars l = some (l.map PatChar.lit) := by
  intro l
  induction l with
  | nil => intro _; rfl
  | cons c cs ih =>
    intro h
    simp only [List.all_cons, Bool.and_eq_true] at h
    have hmem : c ∉ regexMetachars := by
      intro hm
      have hc : regexMetachars.contains c = true := List.elem_eq_true_of_mem hm
      rw [hc] at h
      simp at h
    have hdot : ¬ c = '.' := by
      intro hcd
      apply hmem
      rw [hcd]
      exact List.mem_cons_self _ _
    have hspec : c ∉ regexSpecials := fun hm => hmem (List.mem_cons_of_mem _ hm)
    have hc : compileChar c = some (PatChar.lit c) := by
      unfold compileChar
      rw [if_neg hdot, if_neg (by simpa using hspec)]
    simp [compileChars, hc, ih h.2]

theorem compilePattern_safe {t : String} (h : isRegexSafe t = true) :
    compilePattern t = some (t.data.map PatChar.lit) :=
  compileChars_safe h

theorem termPoints_safe (t : String) (a : Article) (hsafe : isRegexSafe t = true)
    (hne : t.data ≠ []) : termPoints t a = Except.ok (claimTermScore t a) := by
  unfold termPoints claimTermScore
  rw [compilePattern_safe hsafe]
  dsimp only
  rw [countMatches_lit hne]
  rfl

theorem termPoints_of_compile_none {t : String} (a : Article)
    (h : compilePattern t = none) : termPoints t a = Except.error () := by
  unfold termPoints
  rw [h]

theorem pointsOf_eq_of_ok {t : String} {a : Article} {n : Nat}
    (h : termPoints t a = Except.ok n) : pointsOf t a = n := by
  unfold pointsOf
  rw [h]

theorem score_fold_ok (a : Article) :
    ∀ (terms : List String) (acc : Nat),
      (∀ t ∈ terms, (compilePattern t).isSome = true) →
      List.foldlM (fun acc t => (termPoints t a).map (fun p => acc + p)) acc terms =
        Except.ok (acc + (terms.map (fun t => pointsOf t a)).sum) := by
  intro terms
  induction terms with
  | nil => intro acc _; rfl
  | cons t ts ih =>
    intro acc h
    have hc : (compilePattern t).isSome = true := h t (by simp)
    obtain ⟨pat, hpat⟩ := Option.isSome_iff_exists.mp hc
    have hok : termPoints t a = Except.ok (pointsOf t a) := by
      unfold termPoints pointsOf
      rw [hpat]
      unfold termPoints
      rw [hpat]
    rw [List.foldlM_cons, hok]
    show List.foldlM _ (acc + pointsOf t a) ts = _
    rw [ih (acc + pointsOf t a) (fun u hu => h u (by simp [hu]))]
    simp [Nat.add_assoc]

theorem scoreArticleTerms_ok_sum (terms : List String) (a : Article)
    (h : ∀ t ∈ terms, (compilePattern t).isSome = true) :
    scoreArticleTerms terms a = Except.ok ((terms.map (fun t => pointsOf t a)).sum) := by
  unfold scoreArticleTerms
  rw [score_fold_ok a terms 0 h]
  simp

theorem score_fold_error (a : Article) :
    ∀ (terms : List String) (acc : Nat) (t0 : String), t0 ∈ terms →
      compilePattern t0 = none →
      List.foldlM (fun acc t => (termPoints t a).map (fun p => acc + p)) acc terms =
        Except.error () := by
  intro terms
  induction terms with
  | nil => intro acc t0 h; simp at h
  | cons t ts ih =>
    intro acc t0 hmem hnone
    rw [List.foldlM_cons]
    cases hcomp : compilePattern t with
    | none =>
      rw [termPoints_of_compile_none a hcomp]
      rfl
    | some pat =>
      have hok : ∃ k, termPoints t a = Except.ok k := by
        unfold termPoints
        rw [hcomp]
        exact ⟨_, rfl⟩
      obtain ⟨k, hk⟩ := hok
      rw [hk]
      show List.foldlM _ (acc + k) ts = _
      have ht0 : t0 ∈ ts := by
        rcases List.mem_cons.mp hmem with h1 | h1
        · subst h1; rw [hcomp] at hnone; exact absurd hnone (by simp)
        · exact h1
      exact ih (acc + k) t0 ht0 hnone

theorem scoreArticleTerms_ok_elim {terms : List String} {a : Article} {n : Nat}
    (h : scoreArticleTerms terms a = Except.ok n) :
    (∀ t ∈ terms, (compilePattern t).isSome = true) ∧
      n = (terms.map (fun t => pointsOf t a)).sum := by
  have hall : ∀ t ∈ terms, (compilePattern t).isSome = true := by
    intro t ht
    cases hcomp : compilePattern t with
    | none =>
      rw [scoreArticleTerms] at h
      rw [score_fold_error a terms 0 t ht hcomp] at h
      exact absurd h (by simp)
    | some pat => rfl
  refine ⟨hall, ?_⟩
  rw [scoreArticleTerms_ok_sum terms a hall] at h
  injection h with h'
  exact h'.symm

theorem queryTerms_ne_nil {q t : String} (ht : t ∈ queryTerms q) : t.data ≠ [] := by
  unfold queryTerms at ht
  have := List.of_mem_filter ht
  have hlen : 2 < t.length := by simpa using this
  intro hd
  have : t.length = 0 := by
    show t.data.length = 0
    rw [hd]
    rfl
  omega

theorem searchable_append (a : Article) (suffix : String) :
    (lowerStr (a.title ++ " " ++ a.summary ++ " " ++ (a.content ++ suffix))).data =
      (lowerStr (a.title ++ " " ++ a.summary ++ " " ++ a.content)).data ++
        (lowerStr suffix).data := by
  simp [lowerStr_data, string_data_append, List.map_append, List.append_assoc]

theorem pointsOf_content_mono (t : String) (a : Article) (suffix : String)
    (hne : t.data ≠ []) (hc : (compilePattern t).isSome = true) :
    pointsOf t a ≤ pointsOf t { a with content := a.content ++ suffix } := by
  obtain ⟨pat, hpat⟩ := Option.isSome_iff_exists.mp hc
  have hpne : pat ≠ [] := compilePattern_ne_nil hne hpat
  unfold pointsOf termPoints
  rw [hpat]
  dsimp only
  have hle : countMatches pat (lowerStr (a.title ++ " " ++ a.summary ++ " " ++ a.content)).data ≤
      countMatches pat (lowerStr (a.title ++ " " ++ a.summary ++ " " ++ (a.content ++ suffix))).data := by
    rw [searchable_append]
    exact countMatches_append_le hpne _ _
  exact Nat.add_le_add_left (min_le_min hle (le_refl 3)) _

theorem scoreArticleTerms_content_mono {q : String} {a : Article} {n : Nat} (suffix : String)
    (h : scoreArticleTerms (queryTerms q) a = Except.ok n) :
    ∃ m, scoreArticleTerms (queryTerms q) { a with content := a.content ++ suffix } =
        Except.ok m ∧ n ≤ m := by
  obtain ⟨hall, hsum⟩ := scoreArticleTerms_ok_elim h
  refine ⟨((queryTerms q).map
    (fun t => pointsOf t { a with content := a.content ++ suffix })).sum,
    scoreArticleTerms_ok_sum _ _ hall, ?_⟩
  rw [hsum]
  apply List.sum_le_sum
  intro t ht
  exact pointsOf_content_mono t a suffix (queryTerms_ne_nil ht) (hall t ht)

theorem scoreArticleTerms_safe (q : String) (a : Article)
    (hsafe : ∀ t ∈ queryTerms q, isRegexSafe t = true) :
    scoreArticleTerms (queryTerms q) a = Except.ok (claimScore q a) := by
  have hall : ∀ t ∈ queryTerms q, (compilePattern t).isSome = true := by
    intro t ht
    rw [compilePattern_safe (hsafe t ht)]
    rfl
  rw [scoreArticleTerms_ok_sum _ _ hall]
  unfold claimScore
  congr 1
  have hmaps : List.map (fun t => pointsOf t a) (queryTerms q) =
      List.map (fun t => claimTermScore t a) (queryTerms q) :=
    List.map_congr_left
      (fun t ht => pointsOf_eq_of_ok (termPoints_safe t a (hsafe t ht) (queryTerms_ne_nil ht)))
  rw [hmaps]

theorem scan_fold (terms : List String) (f : Article → Nat)
    (hsc : ∀ a, scoreArticleTerms terms a = Except.ok (f a)) :
    ∀ (c : Cache) (acc : List (Article × Nat)),
      List.foldlM
        (fun acc p => do
          let n ← scoreArticleTerms terms (Prod.snd p)
          pure (if 0 < n then acc ++ [(Prod.snd p, n)] else acc))
        acc c =
      Except.ok (acc ++ c.filterMap
        (fun p => if 0 < f p.2 then some (p.2, f p.2) else none)) := by
  intro c
  induction c with
  | nil => intro acc; simp [List.foldlM]; rfl
  | cons p ps ih =>
    intro acc
    rw [List.foldlM_cons, hsc p.2]
    show List.foldlM _ (if 0 < f p.2 then acc ++ [(p.2, f p.2)] else acc) ps = _
    rw [ih]
    by_cases hpos : 0 < f p.2
    · rw [if_pos hpos]
      simp [List.filterMap_cons, hpos]
    · rw [if_neg hpos]
      simp [List.filterMap_cons, hpos]

/-- On regex-safe queries, the cache scan returns exactly the positive-scoring
records (in cache order), each paired with its claim-formula score. -/
theorem scanScores_safe (q : String) (c : Cache)
    (hsafe : ∀ t ∈ queryTerms q, isRegexSafe t = true) :
    scanScores (queryTerms q) c =
      Except.ok (c.filterMap
        (fun p => if 0 < claimScore q p.2 then some (p.2, claimScore q p.2) else none)) := by
  unfold scanScores
  rw [scan_fold (queryTerms q) (claimScore q) (fun a => scoreArticleTerms_safe q a hsafe) c []]
  simp

/-- Claim C1, as stated, is false: the code splits the query on single spaces
only (`split(' ')`), not on whitespace.  On the query "abc\tdef" and a record
titled "abc", the claimed formula (whitespace split) gives score 6 and keeps
the record, while the code keeps the single term "abc\tdef", scores 0, and
excludes the record from the local result list. -/
theorem c1_scoring_counterexample :
    specScoreC1 "abc\tdef" artAbc = 6 ∧
      scoreArticleTerms (queryTerms "abc\tdef") artAbc = Except.ok 0 ∧
      scanScores (queryTerms "abc\tdef") [(artAbc.url, artAbc)] = Except.ok [] :=
  ⟨by decide, rfl, rfl⟩

/-- Claim C1 (amended): the query is lowercased and split on single spaces,
terms of length ≤ 2 discarded; for a query whose surviving terms are free of
regex metacharacters, each record's score is the sum over terms of 5 (term a
substring of the lowercased title) + 3 (of the summary) + 2 (some topic
contains it) + min(non-overlapping occurrences of the term in the lowercased
space-joined title/summary/body, 3); records with total score 0 are excluded
from the local result list. -/
theorem c1_scoring_formula (q : String) (c : Cache)
    (hsafe : ∀ t ∈ queryTerms q, isRegexSafe t = true) :
    (∀ a : Article, scoreArticleTerms (queryTerms q) a = Except.ok (claimScore q a)) ∧
      scanScores (queryTerms q) c =
        Except.ok (c.filterMap
          (fun p => if 0 < claimScore q p.2 then some (p.2, claimScore q p.2) else none)) :=
  ⟨fun a => scoreArticleTerms_safe q a hsafe, scanScores_safe q c hsafe⟩

/-- Witness for the amended C1 at the query "hybrid work" on a one-record
cache: the scan returns the record with score 15 = (5+3) + (5+2). -/
theorem c1_scoring_formula_witness :
    scanScores (queryTerms "hybrid work") [(artHybrid.url, artHybrid)] =
      Except.ok [(artHybrid, 15)] := by
  rw [(c1_scoring_formula "hybrid work" [(artHybrid.url, artHybrid)] (by decide)).2]
  rfl

/-- Claim C3 is wrong about the code: the scorer is not total.  The term
"(((", which survives the length filter, is passed to `new RegExp(term, 'g')`,
which throws a SyntaxError (modelled: `compilePattern` has no value), so the
scorer raises instead of returning an integer ≥ 0. -/
theorem c3_scorer_throws_on_invalid_regex :
    scoreArticleTerms (queryTerms "(((") artAbc = Except.error () ∧
      compilePattern "(((" = none :=
  ⟨rfl, rfl⟩

/-- Claim C4: for every query term, appending one more occurrence of the term
to the record's body never decreases the record's total score (whenever the
scorer returns a score at all), and the per-term frequency contribution
min(count, 3) never exceeds 3. -/
theorem c4_scorer_monotonic :
    (∀ (q : String) (a : Article) (t : String) (n : Nat), t ∈ queryTerms q →
        scoreArticleTerms (queryTerms q) a = Except.ok n →
        ∃ m, scoreArticleTerms (queryTerms q) { a with content := a.content ++ t } =
            Except.ok m ∧ n ≤ m) ∧
      (∀ (t : String) (pat : List PatChar) (s : List Char), compilePattern t = some pat →
        min (countMatches pat s) 3 ≤ 3) :=
  ⟨fun _ a t n _ h => scoreArticleTerms_content_mono t h,
   fun _ _ _ _ => min_le_right _ _⟩

/-- Witness for C4 at the query "hybrid" on the hybrid-work record (base
score 8). -/
theorem c4_scorer_monotonic_witness :
    (∃ m, scoreArticleTerms (queryTerms "hybrid")
        { artHybrid with content := artHybrid.content ++ "hybrid" } =
          Except.ok m ∧ 8 ≤ m) ∧
      min (countMatches [PatChar.lit 'a'] ['a']) 3 ≤ 3 :=
  ⟨c4_scorer_monotonic.1 "hybrid" artHybrid "hybrid" 8 (by decide) rfl,
   c4_scorer_monotonic.2 "a" [PatChar.lit 'a'] ['a'] rfl⟩

theorem mapGet_mapSet_self (c : Cache) (k : String) (v : Article) :
    mapGet (mapSet c k v) k = some v := by
  induction c with
  | nil => simp [mapGet, mapSet, List.find?]
  | cons p ps ih =>
    by_cases hpk : p.1 = k
    · simp [mapSet, hpk, mapGet, List.find?]
    · simp only [mapSet, if_neg hpk]
      simp only [mapGet, List.find?] at ih ⊢
      rw [show (decide (p.1 = k)) = false by simp [hpk]]
      exact ih

theorem mapGet_mapSet_ne (c : Cache) (k : String) (v : Article) (k' : String) (h : k' ≠ k) :
    mapGet (mapSet c k v) k' = mapGet c k' := by
  induction c with
  | nil => simp [mapGet, mapSet, List.find?, Ne.symm h]
  | cons p ps ih =>
    by_cases hpk : p.1 = k
    · subst hpk
      simp [mapSet, mapGet, List.find?, Ne.symm h]
    · simp only [mapSet, if_neg hpk]
      simp only [mapGet, List.find?] at ih ⊢
      cases hd : decide (p.1 = k') with
      | true => rfl
      | false => exact ih

theorem mapGet_isSome_mapSet (c : Cache) (k : String) (v : Article) (k' : String)
    (h : (mapGet c k').isSome = true) : (mapGet (mapSet c k v) k').isSome = true := by
  by_cases hk : k' = k
  · subst hk
    rw [mapGet_mapSet_self]
    rfl
  · rw [mapGet_mapSet_ne c k v k' hk]
    exact h

theorem foldl_preserve {β : Type} (P : Cache → Prop) (step : Cache → β → Cache)
    (hstep : ∀ m x, P m → P (step m x)) :
    ∀ (l : List β) (c : Cache), P c → P (l.foldl step c) := by
  intro l
  induction l with
  | nil => intro c h; exact h
  | cons x xs ih => intro c h; exact ih (step c x) (hstep c x h)

theorem refresh_preserves_key (indexFetch : Option (List String)) (fetch : String → Option Doc)
    (now : Nat) (s : AppState) (k : String) (h : (mapGet s.cache k).isSome = true) :
    (mapGet (refreshArticleCache indexFetch fetch now s).cache k).isSome = true := by
  cases indexFetch with
  | none => exact h
  | some hrefs =>
    apply foldl_preserve (fun c => (mapGet c k).isSome = true)
    · intro m u hm
      unfold refreshInsert
      split
      · exact mapGet_isSome_mapSet m _ _ k hm
      · exact hm
    · exact h

theorem googleFold_preserves_key (fetch : String → Option Doc) (c0 : Cache) (k : String) :
    ∀ (items : List GItem) (c : Cache), (mapGet c k).isSome = true →
      (mapGet (items.foldl
        (fun cc item =>
          match googleInsertVal fetch c0 item.link with
          | some a => mapSet cc item.link a
          | none => cc) c) k).isSome = true := by
  intro items
  apply foldl_preserve (fun c => (mapGet c k).isSome = true)
  intro m item hm
  cases hins : googleInsertVal fetch c0 item.link with
  | some a => exact mapGet_isSome_mapSet m _ _ k hm
  | none => exact hm

theorem searchWithGoogle_preserves_key (cfg : Config) (fetch : String → Option Doc)
    (gresp : Option (Option (List GItem))) (c : Cache) (k : String)
    (h : (mapGet c k).isSome = true) :
    (mapGet (searchWithGoogle cfg fetch gresp c).2 k).isSome = true := by
  unfold searchWithGoogle
  cases hcfg : cfg.googleConfigured with
  | false => exact h
  | true =>
    cases gresp with
    | none => exact h
    | some inner =>
      cases inner with
      | none => exact h
      | some items => exact googleFold_preserves_key fetch c k (items.take 5) c h

theorem searchCached_preserves_key (indexFetch : Option (List String))
    (fetch : String → Option Doc) (now : Nat) (q : String) (s : AppState) (k : String)
    (h : (mapGet s.cache k).isSome = true) :
    (mapGet (searchCachedArticles indexFetch fetch now q s).2.cache k).isSome = true := by
  unfold searchCachedArticles
  dsimp only
  split
  · exact refresh_preserves_key indexFetch fetch now s k h
  · exact h

theorem search1_preserves_key (cfg : Config) (indexFetch : Option (List String))
    (fetch : String → Option Doc) (gresp : Option (Option (List GItem)))
    (now : Nat) (q : String) (s : AppState) (k : String)
    (h : (mapGet s.cache k).isSome = true) :
    (mapGet (searchWorklineArticles1 cfg indexFetch fetch gresp now q s).2.cache k).isSome
      = true := by
  unfold searchWorklineArticles1
  exact searchCached_preserves_key indexFetch fetch now q _ k
    (searchWithGoogle_preserves_key cfg fetch gresp s.cache k h)

theorem search2_preserves_key (indexFetch : Option (List String))
    (fetch : String → Option Doc) (now : Nat) (q : String) (s : AppState) (k : String)
    (h : (mapGet s.cache k).isSome = true) :
    (mapGet (searchWorklineArticles2 indexFetch fetch now q s).2.cache k).isSome = true := by
  unfold searchWorklineArticles2
  dsimp only
  split
  · split
    · exact refresh_preserves_key indexFetch fetch now _ k
        (refresh_preserves_key indexFetch fetch now s k h)
    · exact refresh_preserves_key indexFetch fetch now s k h
  · split
    · exact refresh_preserves_key indexFetch fetch now s k h
    · exact h

/-- Claim C2: if fetching or parsing the index page fails, the refresh aborts
without throwing (the embedding is a total function whose failure branch is
the catch block): the cache and `lastCacheTime` are exactly what they were. -/
theorem c2_refresh_abort_preserves_state (fetch : String → Option Doc) (now : Nat)
    (s : AppState) : refreshArticleCache none fetch now s = s := rfl

/-- Claim C7: a refresh never removes a cache entry — every URL present before
is present after, whatever the index page now contains; the same holds through
both search entry points, so the key set grows monotonically over the process
lifetime. -/
theorem c7_refresh_never_removes (cfg : Config) (indexFetch : Option (List String))
    (fetch : String → Option Doc) (gresp : Option (Option (List GItem)))
    (now : Nat) (q : String) (s : AppState) (k : String)
    (h : (mapGet s.cache k).isSome = true) :
    (mapGet (refreshArticleCache indexFetch fetch now s).cache k).isSome = true ∧
      (mapGet (searchWorklineArticles1 cfg indexFetch fetch gresp now q s).2.cache k).isSome
        = true ∧
      (mapGet (searchWorklineArticles2 indexFetch fetch now q s).2.cache k).isSome = true :=
  ⟨refresh_preserves_key indexFetch fetch now s k h,
   search1_preserves_key cfg indexFetch fetch gresp now q s k h,
   search2_preserves_key indexFetch fetch now q s k h⟩

/-- Witness for C7: the hybrid article's URL survives a refresh that finds a
page with no links at all, and both searches. -/
theorem c7_refresh_never_removes_witness :
    (mapGet (refreshArticleCache (some []) fetchNone 99 stateHybrid).cache
        artHybrid.url).isSome = true ∧
      (mapGet (searchWorklineArticles1 { googleConfigured := false } (some []) fetchNone
          none 99 "hybrid" stateHybrid).2.cache artHybrid.url).isSome = true ∧
      (mapGet (searchWorklineArticles2 (some []) fetchNone 99 "hybrid"
          stateHybrid).2.cache artHybrid.url).isSome = true :=
  c7_refresh_never_removes { googleConfigured := false } (some []) fetchNone none 99 "hybrid"
    stateHybrid artHybrid.url (by decide)

theorem scrapeArticle_url (fd : Option Doc) (u : String) : (scrapeArticle fd u).url = u := by
  cases fd <;> rfl

theorem wfCache_mapSet {c : Cache} {k : String} {v : Article} (hwf : wfCache c = true)
    (hurl : v.url = k) (htitle : v.title ≠ "Article") : wfCache (mapSet c k v) = true := by
  induction c with
  | nil => simp [wfCache, mapSet, hurl, htitle]
  | cons p ps ih =>
    simp only [wfCache, List.all_cons, Bool.and_eq_true] at hwf
    by_cases hpk : p.1 = k
    · simp only [mapSet, if_pos hpk, wfCache, List.all_cons, Bool.and_eq_true]
      refine ⟨by simp [hurl, htitle], hwf.2⟩
    · simp only [mapSet, if_neg hpk, wfCache, List.all_cons, Bool.and_eq_true]
      exact ⟨hwf.1, ih hwf.2⟩

theorem wfCache_refreshInsert {c : Cache} (a : Article) (hwf : wfCache c = true) :
    wfCache (refreshInsert c a) = true := by
  unfold refreshInsert
  split
  · exact wfCache_mapSet hwf rfl (by assumption)
  · exact hwf

theorem googleInsertVal_spec {fetch : String → Option Doc} {c : Cache} {link : String}
    {a : Article} (h : googleInsertVal fetch c link = some a) :
    a.url = link ∧ a.title ≠ "Article" := by
  cases hget : mapGet c link with
  | some _ =>
    unfold googleInsertVal at h
    rw [hget] at h
    exact absurd h (by simp)
  | none =>
    unfold googleInsertVal at h
    rw [hget] at h
    dsimp only at h
    by_cases ht : (scrapeArticle (fetch link) link).title = "Article"
    · rw [if_neg (not_not_intro ht)] at h
      exact absurd h (by simp)
    · rw [if_pos ht] at h
      injection h with h'
      subst h'
      exact ⟨scrapeArticle_url _ _, ht⟩

theorem wfCache_refresh (indexFetch : Option (List String)) (fetch : String → Option Doc)
    (now : Nat) (s : AppState) (hwf : wfCache s.cache = true) :
    wfCache (refreshArticleCache indexFetch fetch now s).cache = true := by
  cases indexFetch with
  | none => exact hwf
  | some hrefs =>
    apply foldl_preserve (fun c => wfCache c = true)
    · intro m u hm
      exact wfCache_refreshInsert _ hm
    · exact hwf

theorem wfCache_googleFold (fetch : String → Option Doc) (c0 : Cache) :
    ∀ (items : List GItem) (c : Cache), wfCache c = true →
      wfCache (items.foldl
        (fun cc item =>
          match googleInsertVal fetch c0 item.link with
          | some a => mapSet cc item.link a
          | none => cc) c) = true := by
  intro items
  apply foldl_preserve (fun c => wfCache c = true)
  intro m item hm
  cases hins : googleInsertVal fetch c0 item.link with
  | some a =>
    obtain ⟨hurl, htitle⟩ := googleInsertVal_spec hins
    exact wfCache_mapSet hm hurl htitle
  | none => exact hm

theorem wfCache_searchWithGoogle (cfg : Config) (fetch : String → Option Doc)
    (gresp : Option (Option (List GItem))) (c : Cache) (hwf : wfCache c = true) :
    wfCache (searchWithGoogle cfg fetch gresp c).2 = true := by
  unfold searchWithGoogle
  cases hcfg : cfg.googleConfigured with
  | false => exact hwf
  | true =>
    cases gresp with
    | none => exact hwf
    | some inner =>
      cases inner with
      | none => exact hwf
      | some items => exact wfCache_googleFold fetch c (items.take 5) c hwf

theorem wfCache_search1 (cfg : Config) (indexFetch : Option (List String))
    (fetch : String → Option Doc) (gresp : Option (Option (List GItem)))
    (now : Nat) (q : String) (s : AppState) (hwf : wfCache s.cache = true) :
    wfCache (searchWorklineArticles1 cfg indexFetch fetch gresp now q s).2.cache = true := by
  unfold searchWorklineArticles1 searchCachedArticles
  dsimp only
  split
  · exact wfCache_refresh indexFetch fetch now _
      (wfCache_searchWithGoogle cfg fetch gresp s.cache hwf)
  · exact wfCache_searchWithGoogle cfg fetch gresp s.cache hwf

theorem wfCache_search2 (indexFetch : Option (List String)) (fetch : String → Option Doc)
    (now : Nat) (q : String) (s : AppState) (hwf : wfCache s.cache = true) :
    wfCache (searchWorklineArticles2 indexFetch fetch now q s).2.cache = true := by
  unfold searchWorklineArticles2
  dsimp only
  split
  · split
    · exact wfCache_refresh indexFetch fetch now _ (wfCache_refresh indexFetch fetch now s hwf)
    · exact wfCache_refresh indexFetch fetch now s hwf
  · split
    · exact wfCache_refresh indexFetch fetch now s hwf
    · exact hwf

/-- Claim C10: the cache well-formedness invariant — every entry's stored
record has `url` equal to its key, and no stored record carries the sentinel
title "Article" — is preserved by refresh and by both search entry points. -/
theorem c10_cache_wellformedness (cfg : Config) (indexFetch : Option (List String))
    (fetch : String → Option Doc) (gresp : Option (Option (List GItem)))
    (now : Nat) (q : String) (s : AppState) (hwf : wfCache s.cache = true) :
    wfCache (refreshArticleCache indexFetch fetch now s).cache = true ∧
      wfCache (searchWorklineArticles1 cfg indexFetch fetch gresp now q s).2.cache = true ∧
      wfCache (searchWorklineArticles2 indexFetch fetch now q s).2.cache = true :=
  ⟨wfCache_refresh indexFetch fetch now s hwf,
   wfCache_search1 cfg indexFetch fetch gresp now q s hwf,
   wfCache_search2 indexFetch fetch now q s hwf⟩

/-- Witness for C10 starting from the singleton hybrid cache. -/
theorem c10_cache_wellformedness_witness :
    wfCache (refreshArticleCache (some []) fetchNone 99 stateHybrid).cache = true ∧
      wfCache (searchWorklineArticles1 { googleConfigured := false } (some []) fetchNone
          none 99 "hybrid" stateHybrid).2.cache = true ∧
      wfCache (searchWorklineArticles2 (some []) fetchNone 99 "hybrid"
          stateHybrid).2.cache = true :=
  c10_cache_wellformedness { googleConfigured := false } (some []) fetchNone none 99 "hybrid"
    stateHybrid (by decide)

/-- Claim C8, as stated, is false: on a successfully fetched page whose
heading, page-title and title-class probes all come back empty, the extracted
title is the empty string — the sentinel "Article" appears only in the catch
branch for failed fetches. -/
theorem c8_title_counterexample :
    (scrapeArticle (some docNoTitle) "https://www.flexos.work/the-workline/x").title = "" ∧
      ("" : String) ≠ "Article" :=
  ⟨rfl, by decide⟩

/-- Claim C8 (amended): the extracted title is always at most 150 characters;
the sentinel title "Article" is produced exactly by the fetch-failure branch;
and on a fetched document whose whole title fallback chain yields empty text
the record's title is the empty string, not the sentinel. -/
theorem c8_title_bounds (fd : Option Doc) (url : String) :
    (scrapeArticle fd url).title.length ≤ 150 ∧
      (fd = none → (scrapeArticle fd url).title = "Article") ∧
      (∀ d, fd = some d → trimStr d.h1First = "" →
        trimStr (removeFirst (removeFirst d.titleTag " | FlexOS") " | The Workline") = "" →
        trimStr d.titleClassFirst = "" → (scrapeArticle fd url).title = "") := by
  refine ⟨?_, ?_, ?_⟩
  · cases fd with
    | none =>
      show ("Article" : String).length ≤ 150
      decide
    | some d =>
      show (takeChars _ 150).length ≤ 150
      show (List.take 150 _).length ≤ 150
      rw [List.length_take]
      exact min_le_left _ _
  · intro h
    subst h
    rfl
  · intro d hfd h1 h2 h3
    subst hfd
    show takeChars (jsOr (trimStr d.h1First) (jsOr (trimStr (removeFirst (removeFirst d.titleTag " | FlexOS") " | The Workline")) (trimStr d.titleClassFirst))) 150 = ""
    rw [h1, h2, h3]
    rfl

/-- Witness for the amended C8: a failed fetch yields the sentinel, and the
all-empty-probe document yields the empty title. -/
theorem c8_title_bounds_witness :
    (scrapeArticle none "https://www.flexos.work/the-workline/x").title = "Article" ∧
      (scrapeArticle (some docNoTitle) "https://www.flexos.work/the-workline/y").title = "" :=
  ⟨(c8_title_bounds none "https://www.flexos.work/the-workline/x").2.1 rfl,
   (c8_title_bounds (some docNoTitle) "https://www.flexos.work/the-workline/y").2.2
     docNoTitle rfl rfl rfl rfl⟩

theorem exceptMap_ok {ε α β : Type} {f : α → β} {e : Except ε α} {l : β}
    (h : e.map f = Except.ok l) : ∃ x, e = Except.ok x ∧ l = f x := by
  cases e with
  | error err => exact absurd h (by simp [Except.map])
  | ok x =>
    refine ⟨x, rfl, ?_⟩
    have : (Except.ok (f x) : Except ε β) = Except.ok l := h
    injection this with h'
    exact h'.symm

theorem insertDesc_perm {α : Type} (score : α → Nat) (x : α) :
    ∀ l : List α, List.Perm (insertDesc score x l) (x :: l) := by
  intro l
  induction l with
  | nil => exact List.Perm.refl _
  | cons h t ih =>
    unfold insertDesc
    split
    · exact List.Perm.refl _
    · exact List.Perm.trans (List.Perm.cons h ih) (List.Perm.swap x h t)

theorem sortFold_perm {α : Type} (score : α → Nat) :
    ∀ (l acc : List α), List.Perm (l.foldl (fun acc x => insertDesc score x acc) acc) (acc ++ l) := by
  intro l
  induction l with
  | nil => intro acc; simp
  | cons x xs ih =>
    intro acc
    rw [List.foldl_cons]
    refine List.Perm.trans (ih (insertDesc score x acc)) ?_
    refine List.Perm.trans (List.Perm.append_right xs (insertDesc_perm score x acc)) ?_
    exact (List.perm_middle).symm

theorem sortByScoreDesc_perm {α : Type} (score : α → Nat) (l : List α) :
    List.Perm (sortByScoreDesc score l) l := by
  unfold sortByScoreDesc
  simpa using sortFold_perm score l []

theorem mergedAll_decomp :
    ∀ (cr acc : List SearchResult),
      ∃ ex, cr.foldl (fun acc c => if acc.any (fun r => r.url = c.url) then acc else acc ++ [c]) acc
          = acc ++ ex ∧ ∀ e ∈ ex, ∀ r ∈ acc, r.url ≠ e.url := by
  intro cr
  induction cr with
  | nil => intro acc; exact ⟨[], by simp, by simp⟩
  | cons c cs ih =>
    intro acc
    rw [List.foldl_cons]
    by_cases hany : acc.any (fun r => r.url = c.url) = true
    · rw [if_pos hany]
      exact ih acc
    · rw [if_neg hany]
      obtain ⟨ex, hex, hprop⟩ := ih (acc ++ [c])
      refine ⟨c :: ex, by simpa [List.append_assoc] using hex, ?_⟩
      intro e he r hr
      rcases List.mem_cons.mp he with he1 | he1
      · subst he1
        intro hru
        apply hany
        simp only [List.any_eq_true, decide_eq_true_eq]
        exact ⟨r, hr, hru⟩
      · exact hprop e he1 r (by simp [hr])

theorem mergedAll_nodup :
    ∀ (cr acc : List SearchResult), (acc.map (fun r => r.url)).Nodup →
      ((cr.foldl (fun acc c => if acc.any (fun r => r.url = c.url) then acc else acc ++ [c]) acc).map
        (fun r => r.url)).Nodup := by
  intro cr
  induction cr with
  | nil => intro acc h; exact h
  | cons c cs ih =>
    intro acc h
    rw [List.foldl_cons]
    by_cases hany : acc.any (fun r => r.url = c.url) = true
    · rw [if_pos hany]
      exact ih acc h
    · rw [if_neg hany]
      apply ih
      rw [List.map_append, List.nodup_append]
      refine ⟨h, by simp, ?_⟩
      intro u hu hu'
      simp only [List.map_cons, List.map_nil, List.mem_singleton] at hu'
      subst hu'
      obtain ⟨r, hr, hru⟩ := List.mem_map.mp hu
      apply hany
      simp only [List.any_eq_true, decide_eq_true_eq]
      exact ⟨r, hr, hru⟩

theorem filter_url_length_one :
    ∀ (l : List SearchResult) (u : String), ((l.map (fun r => r.url)).Nodup) →
      u ∈ l.map (fun r => r.url) → (l.filter (fun r => r.url = u)).length = 1 := by
  intro l
  induction l with
  | nil => intro u _ hu; simp at hu
  | cons r rs ih =>
    intro u hnd hu
    simp only [List.map_cons, List.nodup_cons] at hnd
    by_cases hru : r.url = u
    · rw [List.filter_cons_of_pos (by simp [hru])]
      have hnone : rs.filter (fun x => decide (x.url = u)) = [] := by
        rw [List.filter_eq_nil_iff]
        intro a ha
        simp only [decide_eq_true_eq]
        intro hau
        exact hnd.1 (List.mem_map.mpr ⟨a, ha, by rw [hau]; exact hru.symm⟩)
      simp [hnone]
    · rw [List.filter_cons_of_neg (by simp [hru])]
      rcases List.mem_cons.mp
          (show u ∈ r.url :: rs.map (fun x => x.url) from hu) with h1 | h1
      · exact absurd h1.symm hru
      · exact ih u hnd.2 h1

theorem filter_url_length_le_one :
    ∀ (l : List SearchResult) (u : String), ((l.map (fun r => r.url)).Nodup) →
      (l.filter (fun r => r.url = u)).length ≤ 1 := by
  intro l u hnd
  by_cases hu : u ∈ l.map (fun r => r.url)
  · rw [filter_url_length_one l u hnd hu]
  · have : l.filter (fun r => r.url = u) = [] := by
      rw [List.filter_eq_nil_iff]
      intro a ha
      simp only [decide_eq_true_eq]
      intro hau
      exact hu (List.mem_map.mpr ⟨a, ha, hau⟩)
    simp [this]

/-- Claim C5, as stated, is false: the dedup loop never checks the external
list against itself, so when Google returns the same URL twice (here, a URL
that is also in the local cache results), the final list carries two entries
for that URL — not "exactly one". -/
theorem c5_merge_counterexample :
    (searchWorklineArticles1 { googleConfigured := true } none fetchNone
        (some (some [gItemHybrid, gItemHybrid])) 0 "hybrid" stateHybrid).1.map
      (fun l => (l.filter
        (fun r => r.url = "https://www.flexos.work/the-workline/hybrid-work-guide")).length) =
      Except.ok 2 := rfl

/-- Claim C5 (amended): provided the external (Google) result list itself
carries pairwise-distinct URLs, every URL appears at most once in the merged
list and in the final sorted-and-truncated output; a URL present in the
external list (in particular one present in both lists) has exactly one entry
in the merged list, that entry comes from the external branch, and after
truncation to 5 it appears at most once. -/
theorem c5_merge_dedup (gr cr : List SearchResult)
    (hg : (gr.map (fun r => r.url)).Nodup) :
    ((mergedAll gr cr).map (fun r => r.url)).Nodup ∧
      ((mergeResults gr cr).map (fun r => r.url)).Nodup ∧
      (∀ u, u ∈ gr.map (fun r => r.url) →
        ((mergedAll gr cr).filter (fun r => r.url = u)).length = 1 ∧
          (∀ r ∈ mergedAll gr cr, r.url = u → r ∈ gr) ∧
          ((mergeResults gr cr).filter (fun r => r.url = u)).length ≤ 1) := by
  have hnodup : ((mergedAll gr cr).map (fun r => r.url)).Nodup := mergedAll_nodup cr gr hg
  have hperm : List.Perm (sortByScoreDesc (fun r => r.score) (mergedAll gr cr)) (mergedAll gr cr) :=
    sortByScoreDesc_perm _ _
  have hsortnodup : ((sortByScoreDesc (fun r => r.score) (mergedAll gr cr)).map
      (fun r => r.url)).Nodup :=
    List.Perm.nodup (List.Perm.map _ hperm.symm) hnodup
  have hmergenodup : ((mergeResults gr cr).map (fun r => r.url)).Nodup := by
    unfold mergeResults
    rw [List.map_take]
    exact List.Nodup.sublist (List.take_sublist 5 _) hsortnodup
  refine ⟨hnodup, hmergenodup, ?_⟩
  intro u hu
  obtain ⟨ex, hex, hprop⟩ := mergedAll_decomp cr gr
  have hexfilter : ex.filter (fun r => r.url = u) = [] := by
    rw [List.filter_eq_nil_iff]
    intro e he
    simp only [decide_eq_true_eq]
    intro heu
    obtain ⟨r0, hr0, hr0u⟩ := List.mem_map.mp hu
    exact hprop e he r0 hr0 (by rw [hr0u, heu])
  refine ⟨?_, ?_, filter_url_length_le_one _ u hmergenodup⟩
  · unfold mergedAll
    rw [hex, List.filter_append, hexfilter, List.append_nil]
    exact filter_url_length_one gr u hg hu
  · intro r hr hru
    unfold mergedAll at hr
    rw [hex] at hr
    rcases List.mem_append.mp hr with h1 | h1
    · exact h1
    · obtain ⟨r0, hr0, hr0u⟩ := List.mem_map.mp hu
      exact absurd (by rw [hr0u, hru]) (hprop r h1 r0 hr0)

/-- Witness for the amended C5 on one external and one duplicate-URL local
result. -/
theorem c5_merge_dedup_witness :
    ((mergeResults [gResHybrid] [cResHybrid]).map (fun r => r.url)).Nodup ∧
      ((mergedAll [gResHybrid] [cResHybrid]).filter
        (fun r => r.url = "https://www.flexos.work/the-workline/hybrid-work-guide")).length
        = 1 :=
  ⟨(c5_merge_dedup [gResHybrid] [cResHybrid] (by decide)).2.1,
   ((c5_merge_dedup [gResHybrid] [cResHybrid] (by decide)).2.2
     "https://www.flexos.work/the-workline/hybrid-work-guide" (by decide)).1⟩

/-- Claim C9: whatever the query, the cache state and the oracle outcomes, a
search that returns a result list returns at most 5 entries (both the
Google-merged variant and the cache-only variant truncate with slice(0, 5)). -/
theorem c9_truncation (cfg : Config) (indexFetch : Option (List String))
    (fetch : String → Option Doc) (gresp : Option (Option (List GItem)))
    (now : Nat) (q : String) (s : AppState) :
    (∀ l, (searchWorklineArticles1 cfg indexFetch fetch gresp now q s).1 = Except.ok l →
        l.length ≤ 5) ∧
      (∀ l, (searchWorklineArticles2 indexFetch fetch now q s).1 = Except.ok l →
        l.length ≤ 5) := by
  constructor
  · intro l h
    unfold searchWorklineArticles1 at h
    dsimp only at h
    obtain ⟨cr, _, hl⟩ := exceptMap_ok h
    subst hl
    unfold mergeResults
    rw [List.length_take]
    exact min_le_left _ _
  · intro l h
    unfold searchWorklineArticles2 at h
    dsimp only at h
    obtain ⟨scored, _, hl⟩ := exceptMap_ok h
    subst hl
    rw [List.length_take]
    exact min_le_left _ _

/-- Witness for C9 on a query with no scoring terms: the empty result list has
length ≤ 5. -/
theorem c9_truncation_witness :
    (([] : List SearchResult).length ≤ 5) ∧ (([] : List (Article × Nat)).length ≤ 5) :=
  ⟨(c9_truncation { googleConfigured := false } none fetchNone none 0 "zz" stateHybrid).1
      [] rfl,
   (c9_truncation { googleConfigured := false } none fetchNone none 0 "zz" stateHybrid).2
      [] rfl⟩

theorem googleFold_mapGet (fetch : String → Option Doc) (c0 : Cache) :
    ∀ (items : List GItem) (c : Cache) (k : String),
      mapGet (items.foldl
        (fun cc item =>
          match googleInsertVal fetch c0 item.link with
          | some a => mapSet cc item.link a
          | none => cc) c) k =
      (match googleInsertVal fetch c0 k, items.any (fun it => it.link = k) with
       | some a, true => some a
       | _, _ => mapGet c k) := by
  intro items
  induction items with
  | nil =>
    intro c k
    cases googleInsertVal fetch c0 k with
    | some a => simp
    | none => simp
  | cons it its ih =>
    intro c k
    rw [List.foldl_cons]
    by_cases hlink : it.link = k
    · subst hlink
      cases hins : googleInsertVal fetch c0 it.link with
      | some a =>
        rw [ih (mapSet c it.link a) it.link]
        rw [hins]
        cases hany : its.any (fun x => x.link = it.link) with
        | true => simp [List.any_cons]
        | false => simp [List.any_cons, mapGet_mapSet_self]
      | none =>
        rw [ih c it.link, hins]
    · have hanyeq : ((it :: its).any fun x => x.link = k) = (its.any fun x => x.link = k) := by
        simp [List.any_cons, hlink]
      rw [hanyeq]
      cases hins : googleInsertVal fetch c0 it.link with
      | some a =>
        rw [ih (mapSet c it.link a) k]
        have hget : mapGet (mapSet c it.link a) k = mapGet c k :=
          mapGet_mapSet_ne c it.link a k (fun h => hlink h.symm)
        cases googleInsertVal fetch c0 k with
        | some a' =>
          cases its.any (fun x => x.link = k) with
          | true => rfl
          | false => exact hget
        | none =>
          cases its.any (fun x => x.link = k) with
          | true => exact hget
          | false => exact hget
      | none =>
        rw [ih c k]

theorem googleInsertVal_some_elim {fetch : String → Option Doc} {c : Cache} {k : String}
    {a : Article} (h : googleInsertVal fetch c k = some a) :
    mapGet c k = none ∧ a = scrapeArticle (fetch k) k := by
  unfold googleInsertVal at h
  cases hget : mapGet c k with
  | some _ => rw [hget] at h; exact absurd h (by simp)
  | none =>
    rw [hget] at h
    dsimp only at h
    split at h
    · injection h with h'
      exact ⟨rfl, h'.symm⟩
    · exact absurd h (by simp)

theorem googleInsertVal_none_elim {fetch : String → Option Doc} {c : Cache} {k : String}
    (h : googleInsertVal fetch c k = none) (hget : mapGet c k = none) :
    (scrapeArticle (fetch k) k).title = "Article" := by
  unfold googleInsertVal at h
  rw [hget] at h
  dsimp only at h
  split at h
  · exact absurd h (by simp)
  · next hcond => exact not_not.mp hcond

theorem any_link_of_mem {top : List GItem} {it : GItem} (hit : it ∈ top) :
    (top.any fun x => x.link = it.link) = true := by
  simp only [List.any_eq_true, decide_eq_true_eq]
  exact ⟨it, hit, rfl⟩

theorem googleArticleData_after_fold (fetch : String → Option Doc) (c0 : Cache)
    (top : List GItem) (it : GItem) (hit : it ∈ top) :
    googleArticleData fetch
        (top.foldl
          (fun cc item =>
            match googleInsertVal fetch c0 item.link with
            | some a => mapSet cc item.link a
            | none => cc) c0) it =
      googleArticleData fetch c0 it := by
  have hmg := googleFold_mapGet fetch c0 top c0 it.link
  rw [any_link_of_mem hit] at hmg
  cases hins : googleInsertVal fetch c0 it.link with
  | some a =>
    rw [hins] at hmg
    obtain ⟨hget0, ha⟩ := googleInsertVal_some_elim hins
    unfold googleArticleData
    rw [hmg, hget0]
    dsimp only
    exact ha
  | none =>
    rw [hins] at hmg
    unfold googleArticleData
    rw [hmg]

theorem googleInsertVal_of_get_some {fetch : String → Option Doc} {C : Cache} {k : String}
    {a : Article} (h : mapGet C k = some a) : googleInsertVal fetch C k = none := by
  unfold googleInsertVal
  rw [h]

theorem googleInsertVal_of_get_none {fetch : String → Option Doc} {C : Cache} {k : String}
    (h : mapGet C k = none) (ht : (scrapeArticle (fetch k) k).title = "Article") :
    googleInsertVal fetch C k = none := by
  unfold googleInsertVal
  rw [h]
  dsimp only
  rw [if_neg (not_not_intro ht)]

theorem googleInsertVal_after_fold (fetch : String → Option Doc) (c0 : Cache)
    (top : List GItem) (it : GItem) (hit : it ∈ top) :
    googleInsertVal fetch
        (top.foldl
          (fun cc item =>
            match googleInsertVal fetch c0 item.link with
            | some a => mapSet cc item.link a
            | none => cc) c0) it.link = none := by
  have hmg := googleFold_mapGet fetch c0 top c0 it.link
  rw [any_link_of_mem hit] at hmg
  cases hins : googleInsertVal fetch c0 it.link with
  | some a =>
    rw [hins] at hmg
    exact googleInsertVal_of_get_some hmg
  | none =>
    rw [hins] at hmg
    cases hget0 : mapGet c0 it.link with
    | some a =>
      rw [hget0] at hmg
      exact googleInsertVal_of_get_some hmg
    | none =>
      rw [hget0] at hmg
      exact googleInsertVal_of_get_none hmg (googleInsertVal_none_elim hins hget0)

theorem foldl_insert_noop (g : String → Option Article) :
    ∀ (l : List GItem) (c : Cache), (∀ x ∈ l, g x.link = none) →
      l.foldl
        (fun cc x =>
          match g x.link with
          | some a => mapSet cc x.link a
          | none => cc) c = c := by
  intro l
  induction l with
  | nil => intro c _; rfl
  | cons x xs ih =>
    intro c h
    rw [List.foldl_cons, h x (by simp)]
    exact ih c (fun y hy => h y (by simp [hy]))

theorem searchWithGoogle_idem (cfg : Config) (fetch : String → Option Doc)
    (gresp : Option (Option (List GItem))) (c : Cache) :
    searchWithGoogle cfg fetch gresp (searchWithGoogle cfg fetch gresp c).2 =
      searchWithGoogle cfg fetch gresp c := by
  unfold searchWithGoogle
  cases hcfg : cfg.googleConfigured with
  | false => simp
  | true =>
    simp only [hcfg, Bool.not_true, Bool.false_eq_true, if_false]
    cases gresp with
    | none => rfl
    | some inner =>
      cases inner with
      | none => rfl
      | some items =>
        dsimp only
        refine Prod.ext ?_ ?_
        · apply List.map_congr_left
          intro it hit
          rw [googleArticleData_after_fold fetch c (items.take 5) it hit]
        · exact foldl_insert_noop _ (items.take 5) _
            (fun x hx => googleInsertVal_after_fold fetch c (items.take 5) x hx)

theorem shouldRefresh_false {t now : Nat} (h : now - t ≤ CACHE_DURATION) :
    shouldRefresh (some t) now = false := by
  unfold shouldRefresh
  exact decide_eq_false (Nat.not_lt.mpr h)

theorem searchCached_no_refresh (indexFetch : Option (List String))
    (fetch : String → Option Doc) (now : Nat) (q : String) (s : AppState) (t : Nat)
    (hl : s.lastCacheTime = some t) (hw : now - t ≤ CACHE_DURATION) :
    searchCachedArticles indexFetch fetch now q s =
      ((scanScores (queryTerms q) s.cache).map
        (fun scored => sortByScoreDesc (fun r => r.score) (scored.map toCacheResult)), s) := by
  unfold searchCachedArticles
  rw [hl, shouldRefresh_false hw]
  rfl

/-- Claim C6: two searches with the same query, both within the staleness
window of the same completed refresh (and, for the cache-only variant, with a
non-empty cache so the empty-cache guard does not refresh either), return
identical ordered result lists — even though the first call may opportunistically
grow the cache with Google hits. -/
theorem c6_search_idempotent (cfg : Config) (indexFetch : Option (List String))
    (fetch : String → Option Doc) (gresp : Option (Option (List GItem)))
    (q : String) (s : AppState) (t now1 now2 : Nat) (hl : s.lastCacheTime = some t)
    (h1 : now1 - t ≤ CACHE_DURATION) (h2 : now2 - t ≤ CACHE_DURATION) :
    (searchWorklineArticles1 cfg indexFetch fetch gresp now2 q
        ((searchWorklineArticles1 cfg indexFetch fetch gresp now1 q s).2)).1 =
      (searchWorklineArticles1 cfg indexFetch fetch gresp now1 q s).1 ∧
      (s.cache ≠ [] →
        (searchWorklineArticles2 indexFetch fetch now2 q
            ((searchWorklineArticles2 indexFetch fetch now1 q s).2)).1 =
          (searchWorklineArticles2 indexFetch fetch now1 q s).1) := by
  constructor
  · unfold searchWorklineArticles1
    dsimp only
    rw [searchCached_no_refresh indexFetch fetch now1 q
      { cache := (searchWithGoogle cfg fetch gresp s.cache).2,
        lastCacheTime := s.lastCacheTime } t hl h1]
    dsimp only
    rw [searchWithGoogle_idem cfg fetch gresp s.cache]
    rw [searchCached_no_refresh indexFetch fetch now2 q
      { cache := (searchWithGoogle cfg fetch gresp s.cache).2,
        lastCacheTime := s.lastCacheTime } t hl h2]
  · intro hne
    have hempty : s.cache.isEmpty = false := by
      cases hcs : s.cache with
      | nil => exact absurd hcs hne
      | cons a l => rfl
    have hs1 : searchWorklineArticles2 indexFetch fetch now1 q s =
        ((scanScores (queryTerms q) s.cache).map
          (fun scored => (sortByScoreDesc (fun p => p.2) scored).take 5), s) := by
      unfold searchWorklineArticles2
      rw [hl, shouldRefresh_false h1]
      simp only [Bool.false_eq_true, if_false, hempty]
    rw [hs1]
    unfold searchWorklineArticles2
    rw [hl, shouldRefresh_false h2]
    simp only [Bool.false_eq_true, if_false, hempty]

/-- Witness for C6 on the singleton state within the window. -/
theorem c6_search_idempotent_witness :
    (searchWorklineArticles1 { googleConfigured := false } none fetchNone none 1 "hybrid"
        ((searchWorklineArticles1 { googleConfigured := false } none fetchNone none 0 "hybrid"
          stateHybrid).2)).1 =
      (searchWorklineArticles1 { googleConfigured := false } none fetchNone none 0 "hybrid"
        stateHybrid).1 ∧
      (searchWorklineArticles2 none fetchNone 1 "hybrid"
          ((searchWorklineArticles2 none fetchNone 0 "hybrid" stateHybrid).2)).1 =
        (searchWorklineArticles2 none fetchNone 0 "hybrid" stateHybrid).1 :=
  have h := c6_search_idempotent { googleConfigured := false } none fetchNone none "hybrid"
    stateHybrid 0 0 1 rfl (by decide) (by decide)
  ⟨h.1, h.2 (by decide)⟩

end Workline
